import Mathlib

/-!
Verification of the GPRN variational-inference engine (files `gprn/npvi.py` and
`oldFiles/experimental_stuff/mfi_old.py` of the Tests_gprn repository).

Python floating-point numbers are modelled by exact rationals, numpy square
matrices by `Matrix (Fin n) (Fin n) ℚ` (or by `ℕ → ℕ → ℚ` together with an
explicit size where block-index arithmetic is more natural), and a raised
`LinAlgError` by `Option.none`.  `scipy.linalg.cholesky` succeeds on a
symmetric matrix exactly when every pivot of the symmetric elimination is
positive; we model the factorization by the rational LDLᵀ decomposition
(`ldlt` below), whose unit lower-triangular factor `L` and positive diagonal
`D` represent the Cholesky factor `L·√D`.
-/

namespace Gprn

/-- Square rational matrix of size `n`, modelling a numpy `n×n` float array. -/
abbrev Mat (n : ℕ) : Type := Matrix (Fin n) (Fin n) ℚ

/-- The quadratic form `xᵀ M x` of a square matrix. -/
def quadForm {n : ℕ} (M : Mat n) (x : Fin n → ℚ) : ℚ :=
  ∑ i, ∑ j, x i * M i j * x j

/-- A matrix is entrywise symmetric. -/
def SymmQ {n : ℕ} (M : Mat n) : Prop :=
  ∀ i j, M i j = M j i

/-- Positive definiteness: the quadratic form is positive away from zero. -/
def PosDefQ {n : ℕ} (M : Mat n) : Prop :=
  ∀ x : Fin n → ℚ, x ≠ 0 → 0 < quadForm M x

/-- One elimination step: the Schur complement of the leading entry,
`S i j = M (i+1) (j+1) - M (i+1) 0 * M (j+1) 0 / M 0 0`. -/
def schur {n : ℕ} (M : Mat (n+1)) : Mat n :=
  Matrix.of fun i j => M i.succ j.succ - M i.succ 0 * M j.succ 0 / M 0 0

/-- Assembles the unit lower-triangular factor from one elimination step:
first row `(1, 0, …, 0)`, then the scaled first column `b/a` next to the
factor of the Schur complement. -/
def consL {n : ℕ} (a : ℚ) (b : Fin n → ℚ) (L : Mat n) : Mat (n+1) :=
  Matrix.of (Fin.cons (Fin.cons 1 0) fun i => Fin.cons (b i / a) (L i))

/-- The LDLᵀ factorization by symmetric Gaussian elimination, modelling
`scipy.linalg.cholesky` (LAPACK `potrf`):  at each step the pivot `M 0 0`
must be positive, the first column is divided by the pivot, and elimination
continues on the Schur complement.  `none` models the raised `LinAlgError`.
On success the result is the unit lower-triangular factor together with the
vector of pivots. -/
def ldlt : (n : ℕ) → Mat n → Option (Mat n × (Fin n → ℚ))
  | 0, _ => some (1, ![])
  | n+1, M =>
    if 0 < M 0 0 then
      (ldlt n (schur M)).map fun LD =>
        (consL (M 0 0) (fun i => M i.succ 0) LD.1, Fin.cons (M 0 0) LD.2)
    else none

/-- Mean of the diagonal of a square matrix, `np.diag(matrix).mean()`. -/
def meanDiag (n : ℕ) (M : Mat n) : ℚ := (∑ i, M i i) / n

/-- The baseline nugget of `_cholNugget`:
`np.abs(np.diag(matrix).mean()) * 1e-5`. -/
def baseNugget (n : ℕ) (M : Mat n) : ℚ := |meanDiag n M| * (1 / 100000)

/-- The retry loop of `_cholNugget` (`while n < maximum`, npvi.py lines
268-276): factor `matrix + nugget*np.identity(...)`; on failure multiply the
nugget by 10 and try again, for at most `fuel` attempts in total.  `cnt`
counts the attempts already made; a successful attempt reports the attempt
count together with the nugget that worked. -/
def cholNuggetLoop (n : ℕ) (M : Mat n) :
    ℚ → ℕ → ℕ → Option ((Mat n × (Fin n → ℚ)) × ℚ × ℕ)
  | _, _, 0 => none
  | nugget, cnt, fuel+1 =>
    match ldlt n (M + nugget • (1 : Mat n)) with
    | some LD => some (LD, nugget, cnt + 1)
    | none => cholNuggetLoop n M (10 * nugget) (cnt + 1) fuel

/-- Model of `inference._cholNugget(matrix, maximum)` (npvi.py lines 249-277
and mfi_old.py lines 238-266, which are identical): the nugget is first set to
`np.abs(np.diag(matrix).mean()) * 1e-5`; a direct factorization attempt is
made and, on success, the factor is returned together with that nugget (and
attempt count 0).  Otherwise the retry loop runs for at most `maximum`
attempts; exhausting it models the re-raised `LinAlgError` (`none`). -/
def cholNugget (n : ℕ) (M : Mat n) (maximum : ℕ) :
    Option ((Mat n × (Fin n → ℚ)) × ℚ × ℕ) :=
  match ldlt n M with
  | some LD => some (LD, baseNugget n M, 0)
  | none => cholNuggetLoop n M (baseNugget n M) 0 maximum

/-- Mean of the absolute values of the diagonal.  Modelled from the spec:
"the mean absolute diagonal value", the baseline the claim attributes to
`_cholNugget` (the code instead takes the absolute value of the mean). -/
def meanAbsDiag (n : ℕ) (M : Mat n) : ℚ := (∑ i, |M i i|) / n

/-- The kernel family, tagged exactly as the engines' `isinstance` dispatch
distinguishes it: `covFunction.Linear` and `covFunction.Polynomial` are
non-stationary and carry an evaluator of two raw time points;
`covFunction.WhiteNoise` and every other (stationary) kernel carry an
evaluator of the pairwise lag.  The evaluator bodies live in
`gprn/covFunction.py`, which is not among the analysed sources, so they are
abstract functions here. -/
inductive Kernel : Type where
  | linear (f : ℚ → ℚ → ℚ)
  | polynomial (f : ℚ → ℚ → ℚ)
  | whiteNoise (f : ℚ → ℚ)
  | stationary (f : ℚ → ℚ)

/-- The bare kernel evaluation, without any added regularization:
`kernel(None, time[:, None], time[None, :])` for the non-stationary kernels
and `kernel(r)` on the lag matrix for all others. -/
def rawEval (k : Kernel) (time : ℕ → ℚ) : ℕ → ℕ → ℚ :=
  match k with
  | .linear f => fun i j => f (time i) (time j)
  | .polynomial f => fun i j => f (time i) (time j)
  | .whiteNoise f => fun i j => f (time i - time j)
  | .stationary f => fun i j => f (time i - time j)

/-- Writes the `N×N` block `B` at diagonal position `(pos, pos)` of `M`:
`CB[pos:pos+time.size, pos:pos+time.size] = block`. -/
def writeBlock (N : ℕ) (M : ℕ → ℕ → ℚ) (pos : ℕ) (B : ℕ → ℕ → ℚ) :
    ℕ → ℕ → ℚ :=
  fun r c =>
    if pos ≤ r ∧ r < pos + N ∧ pos ≤ c ∧ c < pos + N
    then B (r - pos) (c - pos) else M r c

/-- Sequentially writes the listed blocks along the diagonal starting at
`pos`, advancing by `N` after each block: the two fill loops of
`_CB_matrix`. -/
def placeBlocks (N : ℕ) : List (ℕ → ℕ → ℚ) → ℕ → (ℕ → ℕ → ℚ) → ℕ → ℕ → ℚ
  | [], _, M => M
  | B :: bs, pos, M => placeBlocks N bs (pos + N) (writeBlock N M pos B)

/-- The side length of the CB matrix, `time.size * q * (p + 1)`. -/
def CB_size (q p N : ℕ) : ℕ := N * q * (p + 1)

/-- Model of `inference._CB_matrix` (npvi.py lines 170-195 and mfi_old.py lines
159-184), parameterized by the engine's `_kernelMatrix` as `km`: an
initially zero square matrix of side `CB_size` whose diagonal blocks are
filled with the `q` node covariance matrices (in node order) followed by
`q*p` copies of the single weight kernel's covariance matrix. -/
def CB_matrix (km : Kernel → (ℕ → ℚ) → ℕ → ℕ → ℚ) (q p N : ℕ)
    (nodes : Fin q → Kernel) (weight : Kernel) (time : ℕ → ℚ) :
    ℕ → ℕ → ℚ :=
  placeBlocks N
    ((List.ofFn fun i => km (nodes i) time) ++
      List.replicate (q * p) (km weight time))
    0 (fun _ _ => 0)

end Gprn

namespace Npvi

open Gprn

/-- Model of `inference._kernelMatrix` of npvi.py (lines 124-136): Linear and
Polynomial kernels are evaluated on the two raw time vectors; every other
kernel is evaluated on the pairwise lag `r = time[i] - time[j]` and receives
the additive term `1e-5 * np.diag(np.diag(np.ones_like(r)))`, i.e.
`1e-5` added to each diagonal entry. -/
def kernelMatrix (k : Kernel) (time : ℕ → ℚ) : ℕ → ℕ → ℚ :=
  match k with
  | .linear f => fun i j => f (time i) (time j)
  | .polynomial f => fun i j => f (time i) (time j)
  | .whiteNoise f => fun i j =>
      f (time i - time j) + if i = j then 1/100000 else 0
  | .stationary f => fun i j =>
      f (time i - time j) + if i = j then 1/100000 else 0

/-- Result of `_predictKernelMatrix`: the white-noise branch produces a 1-D
zero array over the training times, the others an array indexed by query
and training time. -/
inductive PredictResult : Type where
  | vec (v : ℕ → ℚ)
  | mat (m : ℕ → ℕ → ℚ)

/-- The non-stationary evaluation `kernel(None, time, self.time[None, :])`
that the first branch of `_predictKernelMatrix` computes for Linear and
Polynomial kernels. -/
def predictNonstatEval (f : ℚ → ℚ → ℚ) (tstar : ℕ → ℚ) (time : ℕ → ℚ) :
    ℕ → ℕ → ℚ :=
  fun i j => f (tstar i) (time j)

/-- Model of `inference._predictKernelMatrix` (npvi.py lines 138-152).  The first
`if` computes the non-stationary evaluation for Linear/Polynomial kernels,
but the second `if` is not chained to it (`if`, not `elif`): whenever the
kernel is not WhiteNoise, the `else` branch re-assigns `K = kernel(r)`
before the return, discarding the first assignment.  For a Linear or
Polynomial kernel the single-argument call `kernel(r)` is outside the
evaluator's documented signature (`covFunction.py` is not among the
analysed sources; per the spec these kernels take two raw time vectors), so
that overwritten result is modelled by `none`. -/
def predictKernelMatrix (k : Kernel) (tstar : ℕ → ℚ) (time : ℕ → ℚ) :
    Option PredictResult :=
  match k with
  | .whiteNoise _ => some (.vec fun _ => 0)
  | .stationary f => some (.mat fun i j => f (tstar i - time j))
  | .linear _ => none
  | .polynomial _ => none

/-- The per-iteration ELBO of the npvi `EvidenceLowerBound` loop (npvi.py
lines 494-496): the sum of the expected log joint and the entropy.  Both
calls receive arguments that never change inside the loop, so their values
are abstracted as `elj` and `ent`. -/
def elboIteration (elj ent : ℚ) : ℚ := elj + ent

/-- The value of the `return` statement of npvi `EvidenceLowerBound`
(npvi.py line 507): `return ExpLogJoint`, the expected log joint alone. -/
def evidenceLowerBoundReturn (elj ent : ℚ) : ℚ := elj

end Npvi

namespace MfiOld

open Gprn

/-- Model of `inference._kernelMatrix` of mfi_old.py (lines 123-135): identical to
the npvi variant except that the additive diagonal term is `1e-6`. -/
def kernelMatrix (k : Kernel) (time : ℕ → ℚ) : ℕ → ℕ → ℚ :=
  match k with
  | .linear f => fun i j => f (time i) (time j)
  | .polynomial f => fun i j => f (time i) (time j)
  | .whiteNoise f => fun i j =>
      f (time i - time j) + if i = j then 1/1000000 else 0
  | .stationary f => fun i j =>
      f (time i - time j) + if i = j then 1/1000000 else 0

/-- The `error_term` computation of `_updateSigmaMu_new` (mfi_old.py lines
534-543): a jitter/average-noise combination is computed (the discarded
expression uses `np.sqrt`, modelled by an abstract `sqrt`), rebound to
itself, and then rebound to the constant `1`, which is the value the
update equations actually divide by. -/
def errorTermUpdate (sqrt : ℚ → ℚ) (p N : ℕ) (jitters : ℕ → ℚ)
    (yerr : ℕ → ℕ → ℚ) : ℚ :=
  let e0 := sqrt (∑ i in Finset.range p, jitters i ^ 2) / p
  let e1 := e0 + ∑ i in Finset.range p,
    sqrt (∑ k in Finset.range N, yerr i k ^ 2) / N
  let e2 := e1
  let e3 : ℚ := 1
  e3

/-- The `error_term` computation of `_expectedLogLike_new` (mfi_old.py
lines 608-617), textually identical to the one in `_updateSigmaMu_new`:
the combination is computed and then overwritten by the constant `1`. -/
def errorTermLoglike (sqrt : ℚ → ℚ) (p N : ℕ) (jitters : ℕ → ℚ)
    (yerr : ℕ → ℕ → ℚ) : ℚ :=
  let e0 := sqrt (∑ i in Finset.range p, jitters i ^ 2) / p
  let e1 := e0 + ∑ i in Finset.range p,
    sqrt (∑ k in Finset.range N, yerr i k ^ 2) / N
  let e2 := e1
  let e3 : ℚ := 1
  e3

/-- The jitter/average-noise aggregate the spec attributes to `error_term`.
Modelled from the spec: "`error_term` is a scalar combining jitter and
average residual noise", as the sum over outputs of the jitter/noise
aggregate computed in the dead lines 539-541. -/
def errorTermSpec (sqrt : ℚ → ℚ) (p N : ℕ) (jitters : ℕ → ℚ)
    (yerr : ℕ → ℕ → ℚ) : ℚ :=
  sqrt (∑ i in Finset.range p, jitters i ^ 2) / p +
    ∑ i in Finset.range p, sqrt (∑ k in Finset.range N, yerr i k ^ 2) / N

/-- The variational state carried by the mean-field loop: means and
variances for nodes and weights.  The claims only constrain which parts are
returned, so the payload types are abstract. -/
structure MFState (α β γ δ : Type) : Type where
  muF : α
  varF : β
  muW : γ
  varW : δ

/-- Mean of the last (at most) ten recorded values,
`np.mean(ELB[-10:])`. -/
def lastTenMean (l : List ℚ) : ℚ :=
  (l.drop (l.length - 10)).sum / (l.drop (l.length - 10)).length

/-- The `while` loop of the mean-field `EvidenceLowerBound` (mfi_old.py
lines 304-358).  Each iteration runs the coordinate update and the three
ELBO pieces — abstracted as `step`, since the claim constrains only the
loop control — appends the resulting `sum_ELB` to the record, and stops
early when `|np.mean(ELB[-10:]) - sum_ELB| < 1e-10` and that difference is
nonzero, returning `sum_ELB` with the node and weight means; otherwise it
continues until the iteration budget is exhausted. -/
def elbLoop {α β γ δ : Type} (step : MFState α β γ δ → MFState α β γ δ × ℚ) :
    ℕ → List ℚ → MFState α β γ δ → ℚ → ℚ × α × γ
  | 0, _, s, last => (last, s.muF, s.muW)
  | fuel+1, ELB, s, _ =>
    let s' := (step s).1
    let e := (step s).2
    let ELB' := ELB ++ [e]
    let criteria := |lastTenMean ELB' - e|
    if criteria < 1/10^10 ∧ criteria ≠ 0 then (e, s'.muF, s'.muW)
    else elbLoop step fuel ELB' s' e

/-- Model of `inference.EvidenceLowerBound` of mfi_old.py: the record starts as
`ELB = [0]` and the loop runs for at most `iterations` iterations.  (For
`iterations = 0` the Python function would hit an unbound `sum_ELB`; the
model's dummy last value `0` is only meaningful for `iterations ≥ 1`.) -/
def evidenceLowerBound {α β γ δ : Type}
    (step : MFState α β γ δ → MFState α β γ δ × ℚ) (iterations : ℕ)
    (s₀ : MFState α β γ δ) : ℚ × α × γ :=
  elbLoop step iterations [0] s₀ 0

/-- The state after `k` loop iterations. -/
def mfState {α β γ δ : Type} (step : MFState α β γ δ → MFState α β γ δ × ℚ)
    (s₀ : MFState α β γ δ) : ℕ → MFState α β γ δ
  | 0 => s₀
  | k+1 => (step (mfState step s₀ k)).1

/-- The `sum_ELB` value computed by iteration `k` (`mfE 0` is the dummy
initial value). -/
def mfE {α β γ δ : Type} (step : MFState α β γ δ → MFState α β γ δ × ℚ)
    (s₀ : MFState α β γ δ) : ℕ → ℚ
  | 0 => 0
  | k+1 => (step (mfState step s₀ k)).2

/-- The `ELB` record after `k` iterations: `[0]` followed by the first `k`
ELBO values. -/
def elbRecord {α β γ δ : Type} (step : MFState α β γ δ → MFState α β γ δ × ℚ)
    (s₀ : MFState α β γ δ) : ℕ → List ℚ
  | 0 => [0]
  | k+1 => elbRecord step s₀ k ++ [mfE step s₀ (k+1)]

/-- The stopping criterion evaluated at the end of iteration `k`. -/
def stopsAt {α β γ δ : Type} (step : MFState α β γ δ → MFState α β γ δ × ℚ)
    (s₀ : MFState α β γ δ) (k : ℕ) : Prop :=
  |lastTenMean (elbRecord step s₀ k) - mfE step s₀ k| < 1/10^10 ∧
    |lastTenMean (elbRecord step s₀ k) - mfE step s₀ k| ≠ 0

instance stopsAtDecidable {α β γ δ : Type}
    (step : MFState α β γ δ → MFState α β γ δ × ℚ) (s₀ : MFState α β γ δ)
    (k : ℕ) : Decidable (stopsAt step s₀ k) := by
  unfold stopsAt
  infer_instance

end MfiOld

namespace Gprn

/-- Splits a list into the elements at even positions and those at odd
positions: the `for i, j in enumerate(args)` loop of `inference.__init__`
collecting `ys` and `yerrs`. -/
def splitAlternate {α : Type} : List α → List α × List α
  | [] => ([], [])
  | a :: rest => ((splitAlternate rest).2.cons a, (splitAlternate rest).1)

/-- The errors `inference.__init__` can raise before completing:
a numpy reshape `ValueError` (carrying the array size and target shape),
either `AssertionError` (carrying its fixed message), or the `NameError`
on `i` when no data arguments were supplied. -/
inductive InitError : Type where
  | reshape (size rows cols : ℕ)
  | meansAssert (msg : String)
  | dataAssert (msg : String)
  | nameErr
deriving DecidableEq

/-- The message of the means assertion (npvi.py line 65). -/
def meansMsg : String :=
  "The numbers of means should be equal to the number of components"

/-- The message of the data-count assertion (npvi.py line 67). -/
def dataMsg : String := "Given data and number of components dont match"

/-- Model of `inference.__init__` (npvi.py lines 28-67 and mfi_old.py lines 27-66,
identical): `p` is the integer half of the number of trailing data
arguments; the even-position arguments are collected as `ys` and the
odd-position ones as `yerrs`, each reshaped to `(p, N)` (a numpy
`ValueError` when the element count does not match); then the two
assertions run: `means.size == p`, and `(i+1)/2 == p` in true division
(which dereferences the loop variable `i`, a `NameError` when `args` is
empty).  Each argument array has length `N`. -/
def initEngine (meansLen N : ℕ) (args : List (List ℚ)) :
    Except InitError (ℕ × List (List ℚ) × List (List ℚ)) :=
  let p := args.length / 2
  let ys := (splitAlternate args).1
  let yerrs := (splitAlternate args).2
  if ys.length * N ≠ p * N then .error (.reshape (ys.length * N) p N)
  else if yerrs.length * N ≠ p * N then .error (.reshape (yerrs.length * N) p N)
  else if meansLen ≠ p then .error (.meansAssert meansMsg)
  else if args.isEmpty then .error .nameErr
  else if (args.length : ℚ) / 2 ≠ (p : ℚ) then .error (.dataAssert dataMsg)
  else .ok (p, ys, yerrs)

/-- Modelled from the spec: a validation error "names the mismatched
count" only if its message mentions any count at all, i.e. contains a
decimal digit. -/
def mentionsAnyCount (s : String) : Bool := s.toList.any Char.isDigit

/-- Result of `get_y`: either the `p×N` reconstructed-signal matrix (plus
means) or the raw `time` argument. -/
inductive GetYResult : Type where
  | mat (m : ℕ → ℕ → ℚ)
  | timeVec (t : List ℚ)

/-- The tiled mean vector `self._mean(means, time)`, per output `i` and
time index `t`: the output's mean function evaluated at the time, `0` for
an absent (`None`) mean. -/
def meanVec (ms : List (Option (ℚ → ℚ))) (time : List ℚ) (i t : ℕ) : ℚ :=
  match ms.get? i with
  | some (some f) => f ((time.get? t).getD 0)
  | _ => 0

/-- Model of `inference.get_y` (npvi.py lines 243-247 and mfi_old.py lines 232-236,
identical): the einsum contraction of weights and nodes is evaluated first
(modelled as the sum over the node index; it is dead code in the falsy
branch), and the conditional expression then yields `y + mean` when
`means` is truthy and the raw `time` argument when `means` is `None` or
an empty list (Python falsy). -/
def get_y (p q : ℕ) (n : ℕ → ℕ → ℕ → ℚ) (w : ℕ → ℕ → ℕ → ℚ)
    (time : List ℚ) (means : Option (List (Option (ℚ → ℚ)))) : GetYResult :=
  let y : ℕ → ℕ → ℚ := fun i t => ∑ j in Finset.range q, w i j t * n 0 j t
  match means with
  | none => .timeVec time
  | some ms =>
    if ms.isEmpty then .timeVec time
    else .mat fun i t => y i t + meanVec ms time i t

@[simp] theorem consL_zero_zero {n : ℕ} (a : ℚ) (b : Fin n → ℚ) (L : Mat n) :
    consL a b L 0 0 = 1 := rfl

@[simp] theorem consL_zero_succ {n : ℕ} (a : ℚ) (b : Fin n → ℚ) (L : Mat n)
    (j : Fin n) : consL a b L 0 j.succ = 0 := rfl

@[simp] theorem consL_succ_zero {n : ℕ} (a : ℚ) (b : Fin n → ℚ) (L : Mat n)
    (i : Fin n) : consL a b L i.succ 0 = b i / a := rfl

@[simp] theorem consL_succ_succ {n : ℕ} (a : ℚ) (b : Fin n → ℚ) (L : Mat n)
    (i j : Fin n) : consL a b L i.succ j.succ = L i j := rfl

@[simp] theorem schur_apply {n : ℕ} (M : Mat (n+1)) (i j : Fin n) :
    schur M i j = M i.succ j.succ - M i.succ 0 * M j.succ 0 / M 0 0 := rfl

theorem ldlt_zero (M : Mat 0) : ldlt 0 M = some (1, ![]) := rfl

theorem ldlt_succ_of_nonpos {n : ℕ} (M : Mat (n+1)) (h : ¬ 0 < M 0 0) :
    ldlt (n+1) M = none := by
  simp only [ldlt, if_neg h]

theorem ldlt_succ_of_pos {n : ℕ} (M : Mat (n+1)) (h : 0 < M 0 0) :
    ldlt (n+1) M = (ldlt n (schur M)).map fun LD =>
      (consL (M 0 0) (fun i => M i.succ 0) LD.1, Fin.cons (M 0 0) LD.2) := by
  simp only [ldlt, if_pos h]

theorem cholNuggetLoop_succ_some {n : ℕ} {M : Mat n} {nugget : ℚ} {cnt fuel : ℕ}
    {LD : Mat n × (Fin n → ℚ)} (h : ldlt n (M + nugget • (1 : Mat n)) = some LD) :
    cholNuggetLoop n M nugget cnt (fuel+1) = some (LD, nugget, cnt + 1) := by
  simp only [cholNuggetLoop, h]

theorem cholNuggetLoop_succ_none {n : ℕ} {M : Mat n} {nugget : ℚ} {cnt fuel : ℕ}
    (h : ldlt n (M + nugget • (1 : Mat n)) = none) :
    cholNuggetLoop n M nugget cnt (fuel+1) =
      cholNuggetLoop n M (10 * nugget) (cnt + 1) fuel := by
  simp only [cholNuggetLoop, h]

theorem cholNugget_of_direct_some {n maximum : ℕ} {M : Mat n}
    {LD : Mat n × (Fin n → ℚ)} (h : ldlt n M = some LD) :
    cholNugget n M maximum = some (LD, baseNugget n M, 0) := by
  simp only [cholNugget, h]

theorem cholNugget_of_direct_none {n maximum : ℕ} {M : Mat n}
    (h : ldlt n M = none) :
    cholNugget n M maximum = cholNuggetLoop n M (baseNugget n M) 0 maximum := by
  simp only [cholNugget, h]

/-- Characterization of a successful run of the retry loop: the returned
nugget is the starting nugget escalated by a power of 10, the factorization
of `M + nugget·I` succeeds there and failed at every earlier escalation, and
the attempt counter reports the successful attempt. -/
theorem cholNuggetLoop_some_spec (n : ℕ) (M : Mat n) (nug : ℚ) :
    ∀ (fuel cnt : ℕ) (LD : Mat n × (Fin n → ℚ)) (ν : ℚ) (k : ℕ),
      cholNuggetLoop n M (nug * 10 ^ cnt) cnt fuel = some (LD, ν, k) →
      ∃ j, cnt ≤ j ∧ j < cnt + fuel ∧ k = j + 1 ∧ ν = nug * 10 ^ j ∧
        ldlt n (M + ν • (1 : Mat n)) = some LD ∧
        ∀ i, cnt ≤ i → i < j → ldlt n (M + (nug * 10 ^ i) • (1 : Mat n)) = none := by
  intro fuel
  induction fuel with
  | zero =>
    intro cnt LD ν k h
    exact absurd h (by simp [cholNuggetLoop])
  | succ fuel ih =>
    intro cnt LD ν k h
    cases hl : ldlt n (M + (nug * 10 ^ cnt) • (1 : Mat n)) with
    | some LD' =>
      rw [cholNuggetLoop_succ_some hl] at h
      simp only [Option.some.injEq, Prod.mk.injEq] at h
      obtain ⟨hLD, hν, hk⟩ := h
      refine ⟨cnt, le_refl cnt, by omega, by omega, hν.symm, ?_, ?_⟩
      · rw [hν] at hl
        rw [hl, hLD]
      · intro i hi1 hi2
        omega
    | none =>
      rw [cholNuggetLoop_succ_none hl] at h
      rw [show (10:ℚ) * (nug * 10 ^ cnt) = nug * 10 ^ (cnt + 1) by ring] at h
      obtain ⟨j, hj1, hj2, hj3, hj4, hj5, hj6⟩ := ih (cnt + 1) LD ν k h
      refine ⟨j, by omega, by omega, hj3, hj4, hj5, ?_⟩
      intro i hi1 hi2
      rcases Nat.eq_or_lt_of_le hi1 with hcase | hcase
      · subst hcase
        exact hl
      · exact hj6 i hcase hi2

/-- If every escalated nugget fails, the retry loop exhausts its fuel and
reports failure (the re-raised `LinAlgError`). -/
theorem cholNuggetLoop_none_spec (n : ℕ) (M : Mat n) (nug : ℚ) :
    ∀ (fuel cnt : ℕ),
      (∀ j, cnt ≤ j → j < cnt + fuel →
        ldlt n (M + (nug * 10 ^ j) • (1 : Mat n)) = none) →
      cholNuggetLoop n M (nug * 10 ^ cnt) cnt fuel = none := by
  intro fuel
  induction fuel with
  | zero => intro cnt _; rfl
  | succ fuel ih =>
    intro cnt hall
    have hl : ldlt n (M + (nug * 10 ^ cnt) • (1 : Mat n)) = none :=
      hall cnt (le_refl cnt) (by omega)
    rw [cholNuggetLoop_succ_none hl,
      show (10:ℚ) * (nug * 10 ^ cnt) = nug * 10 ^ (cnt + 1) by ring]
    exact ih (cnt + 1) fun j h1 h2 => hall j (by omega) (by omega)

theorem quadForm_single {n : ℕ} (M : Mat n) (i : Fin n) :
    quadForm M (Pi.single i 1) = M i i := by
  unfold quadForm
  rw [Finset.sum_eq_single i]
  · rw [Finset.sum_eq_single i]
    · simp
    · intro b _ hb
      simp [Pi.single_eq_of_ne hb]
    · intro hi
      exact absurd (Finset.mem_univ i) hi
  · intro b _ hb
    simp [Pi.single_eq_of_ne hb]
  · intro hi
    exact absurd (Finset.mem_univ i) hi

theorem posDefQ_diag_pos {n : ℕ} {M : Mat n} (h : PosDefQ M) (i : Fin n) :
    0 < M i i := by
  have hx : (Pi.single i 1 : Fin n → ℚ) ≠ 0 := by
    intro h0
    have h1 := congrFun h0 i
    rw [Pi.single_eq_same] at h1
    exact one_ne_zero h1
  have h2 := h _ hx
  rwa [quadForm_single] at h2

theorem quadForm_cons {n : ℕ} (M : Mat (n+1)) (c : ℚ) (y : Fin n → ℚ) :
    quadForm M (Fin.cons c y) =
      c * M 0 0 * c + (∑ j, c * M 0 j.succ * y j) +
        ∑ i, (y i * M i.succ 0 * c + ∑ j, y i * M i.succ j.succ * y j) := by
  unfold quadForm
  rw [Fin.sum_univ_succ]
  congr 1
  · rw [Fin.sum_univ_succ]
    simp
  · refine Finset.sum_congr rfl fun i _ => ?_
    rw [Fin.sum_univ_succ]
    simp

theorem schur_symm {n : ℕ} {M : Mat (n+1)} (hsym : SymmQ M) : SymmQ (schur M) := by
  intro i j
  simp only [schur_apply]
  rw [hsym i.succ j.succ, mul_comm (M i.succ 0)]

theorem schur_posDef {n : ℕ} {M : Mat (n+1)} (hsym : SymmQ M) (hpd : PosDefQ M) :
    PosDefQ (schur M) := by
  intro y hy
  have ha : 0 < M 0 0 := posDefQ_diag_pos hpd 0
  have ha0 : M 0 0 ≠ 0 := ne_of_gt ha
  set t : ℚ := ∑ i, M i.succ 0 * y i with ht
  set c : ℚ := -t / M 0 0 with hc
  have hx : (Fin.cons c y : Fin (n+1) → ℚ) ≠ 0 := by
    intro h0
    apply hy
    funext i
    have h1 := congrFun h0 i.succ
    rwa [Fin.cons_succ] at h1
  have h1 := hpd _ hx
  have key : quadForm (schur M) y = quadForm M (Fin.cons c y) := by
    have e1 : quadForm (schur M) y =
        (∑ i, ∑ j, y i * M i.succ j.succ * y j) - t * t / M 0 0 := by
      unfold quadForm
      have e11 : ∀ i : Fin n, ∑ j, y i * schur M i j * y j =
          (∑ j, y i * M i.succ j.succ * y j) -
            (y i * M i.succ 0) * t / M 0 0 := by
        intro i
        rw [ht, Finset.mul_sum, Finset.sum_div, ← Finset.sum_sub_distrib]
        refine Finset.sum_congr rfl fun j _ => ?_
        rw [schur_apply]
        ring
      rw [Finset.sum_congr rfl fun i _ => e11 i, Finset.sum_sub_distrib]
      congr 1
      rw [ht, ← Finset.sum_div, ← Finset.sum_mul]
      congr 2
      exact Finset.sum_congr rfl fun i _ => mul_comm _ _
    have e2 : quadForm M (Fin.cons c y) =
        (∑ i, ∑ j, y i * M i.succ j.succ * y j) +
          M 0 0 * c * c + 2 * (c * t) := by
      rw [quadForm_cons]
      have e21 : ∑ j, c * M 0 j.succ * y j = c * t := by
        rw [ht, Finset.mul_sum]
        refine Finset.sum_congr rfl fun j _ => ?_
        rw [hsym 0 j.succ]
        ring
      have e22 : ∑ i, (y i * M i.succ 0 * c + ∑ j, y i * M i.succ j.succ * y j)
          = c * t + ∑ i, ∑ j, y i * M i.succ j.succ * y j := by
        rw [Finset.sum_add_distrib]
        congr 1
        rw [ht, Finset.mul_sum]
        exact Finset.sum_congr rfl fun i _ => by ring
      rw [e21, e22]
      ring
    rw [e1, e2, hc]
    field_simp
    ring
  rwa [key]

/-- A symmetric positive-definite matrix factors successfully (no pivot is
ever nonpositive): the direct `cholesky` attempt succeeds. -/
theorem ldlt_posdef_some : ∀ (n : ℕ) (M : Mat n), SymmQ M → PosDefQ M →
    ∃ LD, ldlt n M = some LD := by
  intro n
  induction n with
  | zero => exact fun M _ _ => ⟨_, rfl⟩
  | succ n ih =>
    intro M hsym hpd
    obtain ⟨LD, hLD⟩ := ih (schur M) (schur_symm hsym) (schur_posDef hsym hpd)
    rw [ldlt_succ_of_pos M (posDefQ_diag_pos hpd 0), hLD]
    exact ⟨_, rfl⟩

theorem mul_diagonal_mul_transpose_apply {m : ℕ} (L : Mat m) (D : Fin m → ℚ)
    (i j : Fin m) :
    (L * Matrix.diagonal D * L.transpose) i j = ∑ k, L i k * D k * L j k := by
  rw [Matrix.mul_apply]
  refine Finset.sum_congr rfl fun k _ => ?_
  rw [Matrix.mul_diagonal, Matrix.transpose_apply]

/-- Correctness of the factorization: on success, `L·diag(D)·Lᵀ`
reconstructs the input matrix exactly. -/
theorem ldlt_correct : ∀ (n : ℕ) (M : Mat n) (L : Mat n) (D : Fin n → ℚ),
    SymmQ M → ldlt n M = some (L, D) →
    L * Matrix.diagonal D * L.transpose = M := by
  intro n
  induction n with
  | zero =>
    intro M L D _ _
    exact Matrix.ext fun i => i.elim0
  | succ n ih =>
    intro M L D hsym h
    have ha : 0 < M 0 0 := by
      by_contra hn
      rw [ldlt_succ_of_nonpos M hn] at h
      exact Option.noConfusion h
    have ha0 : M 0 0 ≠ 0 := ne_of_gt ha
    rw [ldlt_succ_of_pos M ha] at h
    obtain ⟨⟨L', D'⟩, hrec, hmk⟩ := Option.map_eq_some'.mp h
    simp only [Prod.mk.injEq] at hmk
    obtain ⟨hL, hD⟩ := hmk
    subst hL
    subst hD
    have hS := ih (schur M) L' D' (schur_symm hsym) hrec
    refine Matrix.ext fun i j => ?_
    rw [mul_diagonal_mul_transpose_apply]
    refine Fin.cases ?_ (fun i => ?_) i <;> refine Fin.cases ?_ (fun j => ?_) j
    · rw [Fin.sum_univ_succ]
      simp
    · rw [Fin.sum_univ_succ]
      simp only [consL_zero_zero, consL_zero_succ, consL_succ_zero, Fin.cons_zero,
        Fin.cons_succ, zero_mul, mul_zero, Finset.sum_const_zero, add_zero]
      rw [hsym 0 j.succ]
      field_simp
    · rw [Fin.sum_univ_succ]
      simp only [consL_zero_zero, consL_zero_succ, consL_succ_zero, Fin.cons_zero,
        Fin.cons_succ, zero_mul, mul_zero, Finset.sum_const_zero, add_zero]
      field_simp
    · rw [Fin.sum_univ_succ]
      simp only [consL_succ_zero, consL_succ_succ, Fin.cons_zero, Fin.cons_succ]
      have hSij := Matrix.ext_iff.mpr hS i j
      rw [mul_diagonal_mul_transpose_apply] at hSij
      rw [hSij, schur_apply]
      field_simp

/-- The factor is unit lower triangular: ones on the diagonal, zeros above. -/
theorem ldlt_lower : ∀ (n : ℕ) (M : Mat n) (L : Mat n) (D : Fin n → ℚ),
    ldlt n M = some (L, D) →
    (∀ i, L i i = 1) ∧ (∀ i j : Fin n, (i : ℕ) < (j : ℕ) → L i j = 0) := by
  intro n
  induction n with
  | zero =>
    intro M L D _
    exact ⟨fun i => i.elim0, fun i => i.elim0⟩
  | succ n ih =>
    intro M L D h
    have ha : 0 < M 0 0 := by
      by_contra hn
      rw [ldlt_succ_of_nonpos M hn] at h
      exact Option.noConfusion h
    rw [ldlt_succ_of_pos M ha] at h
    obtain ⟨⟨L', D'⟩, hrec, hmk⟩ := Option.map_eq_some'.mp h
    simp only [Prod.mk.injEq] at hmk
    obtain ⟨hL, hD⟩ := hmk
    subst hL
    subst hD
    obtain ⟨ih1, ih2⟩ := ih (schur M) L' D' hrec
    constructor
    · refine Fin.cases ?_ (fun i => ?_)
      · exact consL_zero_zero _ _ _
      · rw [consL_succ_succ]
        exact ih1 i
    · intro i j
      refine Fin.cases ?_ (fun i' => ?_) i <;> refine Fin.cases ?_ (fun j' => ?_) j
      · intro h'
        exact absurd h' (by simp)
      · intro h'
        exact consL_zero_succ _ _ _ j'
      · intro h'
        exact absurd h' (by simp)
      · intro h'
        rw [consL_succ_succ]
        refine ih2 i' j' ?_
        simpa [Fin.val_succ] using h'

/-- The pivots of a symmetric positive-definite matrix are positive. -/
theorem ldlt_pivots_pos : ∀ (n : ℕ) (M : Mat n) (L : Mat n) (D : Fin n → ℚ),
    SymmQ M → PosDefQ M → ldlt n M = some (L, D) → ∀ i, 0 < D i := by
  intro n
  induction n with
  | zero => exact fun M L D _ _ _ i => i.elim0
  | succ n ih =>
    intro M L D hsym hpd h
    rw [ldlt_succ_of_pos M (posDefQ_diag_pos hpd 0)] at h
    obtain ⟨⟨L', D'⟩, hrec, hmk⟩ := Option.map_eq_some'.mp h
    simp only [Prod.mk.injEq] at hmk
    obtain ⟨hL, hD⟩ := hmk
    subst hD
    refine Fin.cases ?_ (fun i => ?_)
    · rw [Fin.cons_zero]
      exact posDefQ_diag_pos hpd 0
    · rw [Fin.cons_succ]
      exact ih (schur M) L' D' (schur_symm hsym) (schur_posDef hsym hpd) hrec i

theorem ldlt_two_none (M : Mat 2) (h0 : 0 < M 0 0)
    (h1 : ¬ 0 < M 1 1 - M 1 0 * M 1 0 / M 0 0) : ldlt 2 M = none := by
  rw [ldlt_succ_of_pos M h0, ldlt_succ_of_nonpos]
  · rfl
  · simpa using h1

theorem ldlt_two_some (M : Mat 2) (h0 : 0 < M 0 0)
    (h1 : 0 < M 1 1 - M 1 0 * M 1 0 / M 0 0) :
    ∃ L, ldlt 2 M = some (L, ![M 0 0, M 1 1 - M 1 0 * M 1 0 / M 0 0]) := by
  rw [ldlt_succ_of_pos M h0, ldlt_succ_of_pos (schur M) (by simpa using h1), ldlt_zero]
  exact ⟨_, rfl⟩

/-- C1 (amended): for a square matrix whose direct factorization fails,
`_cholNugget(M, maximum)` retries factorization of `M + nugget·I` with the
nugget initialized to the absolute value of the mean diagonal value of `M`
times 1e-5 (`np.abs(np.diag(matrix).mean()) * 1e-5` — not the mean of the
absolute diagonal values), multiplies the nugget by 10 after each further
failure, performs at most `maximum` such retries, and if every retry fails
raises the terminal `LinAlgError` (modelled by `none`); in particular with
`maximum = 0` the terminal failure is raised immediately after the first
failed attempt. -/
theorem claim1_cholNugget_retry (n maximum : ℕ) (M : Mat n)
    (hfail : ldlt n M = none) :
    (∀ LD ν k, cholNugget n M maximum = some (LD, ν, k) →
       ∃ j, j < maximum ∧ k = j + 1 ∧ ν = baseNugget n M * 10 ^ j ∧
         ldlt n (M + ν • (1 : Mat n)) = some LD ∧
         ∀ i < j, ldlt n (M + (baseNugget n M * 10 ^ i) • (1 : Mat n)) = none)
    ∧ ((∀ j < maximum,
          ldlt n (M + (baseNugget n M * 10 ^ j) • (1 : Mat n)) = none) →
        cholNugget n M maximum = none)
    ∧ cholNugget n M 0 = none := by
  have hbase : baseNugget n M * 10 ^ (0:ℕ) = baseNugget n M := by
    rw [pow_zero, mul_one]
  refine ⟨?_, ?_, ?_⟩
  · intro LD ν k h
    rw [cholNugget_of_direct_none hfail, ← hbase] at h
    obtain ⟨j, _, hj2, hj3, hj4, hj5, hj6⟩ :=
      cholNuggetLoop_some_spec n M (baseNugget n M) maximum 0 LD ν k h
    exact ⟨j, by omega, hj3, hj4, hj5, fun i hi => hj6 i (by omega) hi⟩
  · intro hall
    rw [cholNugget_of_direct_none hfail, ← hbase]
    exact cholNuggetLoop_none_spec n M (baseNugget n M) maximum 0
      fun j h1 h2 => hall j (by omega)
  · rw [@cholNugget_of_direct_none n 0 M hfail]
    rfl

theorem claim1_cholNugget_retry_witness :
    ldlt 1 !![(-1:ℚ)] = none ∧ cholNugget 1 !![(-1:ℚ)] 0 = none := by
  have hfail : ldlt 1 !![(-1:ℚ)] = none :=
    ldlt_succ_of_nonpos _ (by norm_num)
  exact ⟨hfail, (claim1_cholNugget_retry 1 0 _ hfail).2.2⟩

/-- C1 counterexample to the claim as stated: for
`M = [[1, 0], [0, -1e-6]]` the direct factorization fails and the very first
retry succeeds, so the claim predicts a returned nugget equal to the mean
absolute diagonal value times 1e-5, namely `1000001/200000000000`; the code
returns `999999/200000000000` (the absolute value of the mean diagonal
value times 1e-5) instead. -/
theorem claim1_counterexample :
    ldlt 2 !![(1:ℚ), 0; 0, -1/1000000] = none
    ∧ (cholNugget 2 !![(1:ℚ), 0; 0, -1/1000000] 10).map (fun r => (r.2.1, r.2.2)) =
        some (999999/200000000000, 1)
    ∧ meanAbsDiag 2 !![(1:ℚ), 0; 0, -1/1000000] * (1/100000) =
        1000001/200000000000
    ∧ (ldlt 2 (!![(1:ℚ), 0; 0, -1/1000000] +
        (1000001/200000000000 : ℚ) • (1 : Mat 2))).isSome = true
    ∧ (999999/200000000000 : ℚ) ≠ 1000001/200000000000 := by
  have hfail : ldlt 2 !![(1:ℚ), 0; 0, -1/1000000] = none := by
    apply ldlt_two_none <;> norm_num
  refine ⟨hfail, ?_, ?_, ?_, by norm_num⟩
  · have hb : baseNugget 2 !![(1:ℚ), 0; 0, -1/1000000] = 999999/200000000000 := by
      have hm : meanDiag 2 !![(1:ℚ), 0; 0, -1/1000000] = 999999/2000000 := by
        norm_num [meanDiag, Fin.sum_univ_two]
      rw [baseNugget, hm, abs_of_pos (by norm_num)]
      norm_num
    obtain ⟨L, hL⟩ : ∃ L, ldlt 2 (!![(1:ℚ), 0; 0, -1/1000000] +
        (999999/200000000000 : ℚ) • (1 : Mat 2)) =
          some (L, ![200000999999/200000000000, 799999/200000000000]) := by
      obtain ⟨L, hL⟩ := ldlt_two_some (!![(1:ℚ), 0; 0, -1/1000000] +
        (999999/200000000000 : ℚ) • (1 : Mat 2)) (by norm_num [Matrix.one_apply])
        (by norm_num [Matrix.one_apply])
      refine ⟨L, ?_⟩
      rw [hL]
      norm_num [Matrix.one_apply]
    rw [cholNugget_of_direct_none hfail, hb, cholNuggetLoop_succ_some hL]
    rfl
  · have : |(1:ℚ)| + |(-1/1000000 : ℚ)| = 1000001/1000000 := by
      rw [abs_of_pos (by norm_num), abs_of_neg (by norm_num)]
      norm_num
    rw [meanAbsDiag, Fin.sum_univ_two]
    norm_num at this ⊢
    rw [this]
    norm_num
  · obtain ⟨L, hL⟩ := ldlt_two_some (!![(1:ℚ), 0; 0, -1/1000000] +
      (1000001/200000000000 : ℚ) • (1 : Mat 2)) (by norm_num [Matrix.one_apply])
      (by norm_num [Matrix.one_apply])
    rw [hL]
    rfl

/-- C2: for every symmetric positive-definite (nonempty) matrix `M`,
`_cholNugget(M)` succeeds on the direct factorization attempt with zero
retries, returning a lower-triangular factorization `L·diag(D)·Lᵀ = M` of `M`
itself (nothing added to the diagonal, unit diagonal on `L`, positive pivots)
together with the baseline nugget: the mean absolute diagonal value of `M`
times 1e-5. -/
theorem claim2_cholNugget_posdef (n maximum : ℕ) (M : Mat n) (hn : 0 < n)
    (hsym : SymmQ M) (hpd : PosDefQ M) :
    ∃ L D, cholNugget n M maximum =
        some ((L, D), ((∑ i, |M i i|) / n) * (1 / 100000), 0) ∧
      (∀ i, L i i = 1) ∧ (∀ i j : Fin n, (i : ℕ) < (j : ℕ) → L i j = 0) ∧
      (∀ i, 0 < D i) ∧ L * Matrix.diagonal D * L.transpose = M := by
  obtain ⟨⟨L, D⟩, hLD⟩ := ldlt_posdef_some n M hsym hpd
  have hbase : baseNugget n M = ((∑ i, |M i i|) / n) * (1 / 100000) := by
    have h1 : (∑ i, |M i i|) = ∑ i, M i i :=
      Finset.sum_congr rfl fun i _ => abs_of_pos (posDefQ_diag_pos hpd i)
    have h2 : (0:ℚ) ≤ (∑ i, M i i) / n :=
      div_nonneg (Finset.sum_nonneg fun i _ => le_of_lt (posDefQ_diag_pos hpd i))
        (Nat.cast_nonneg n)
    rw [baseNugget, meanDiag, abs_of_nonneg h2, h1]
  obtain ⟨hunit, hzero⟩ := ldlt_lower n M L D hLD
  exact ⟨L, D, by rw [cholNugget_of_direct_some hLD, hbase], hunit, hzero,
    ldlt_pivots_pos n M L D hsym hpd hLD, ldlt_correct n M L D hsym hLD⟩

theorem claim2_cholNugget_posdef_witness :
    ∃ L D, cholNugget 2 !![(2:ℚ), 0; 0, 3] 10 = some ((L, D), 1/40000, 0) ∧
      L * Matrix.diagonal D * L.transpose = !![(2:ℚ), 0; 0, 3] := by
  have hsym : SymmQ !![(2:ℚ), 0; 0, 3] := by
    intro i j
    fin_cases i <;> fin_cases j <;> norm_num
  have hpd : PosDefQ !![(2:ℚ), 0; 0, 3] := by
    intro x hx
    have hx2 : x 0 ≠ 0 ∨ x 1 ≠ 0 := by
      by_contra hc
      push_neg at hc
      exact hx (funext fun i => by fin_cases i <;> simp [hc.1, hc.2])
    have hq : quadForm !![(2:ℚ), 0; 0, 3] x =
        2 * (x 0 * x 0) + 3 * (x 1 * x 1) := by
      simp [quadForm, Fin.sum_univ_two]
      ring
    rw [hq]
    rcases hx2 with h | h
    · nlinarith [mul_self_pos.mpr h, mul_self_nonneg (x 1)]
    · nlinarith [mul_self_pos.mpr h, mul_self_nonneg (x 0)]
  obtain ⟨L, D, h1, _, _, _, h5⟩ :=
    claim2_cholNugget_posdef 2 10 !![(2:ℚ), 0; 0, 3] (by norm_num) hsym hpd
  have hx : ((∑ i, |(!![(2:ℚ), 0; 0, 3]) i i|) / (2:ℕ)) * (1 / 100000) =
      (1/40000 : ℚ) := by
    rw [Fin.sum_univ_two]
    norm_num
  rw [hx] at h1
  exact ⟨L, D, h1, h5⟩

/-- C5 (amended): in `_kernelMatrix`, kernels other than Linear and
Polynomial (those evaluated on the pairwise lag, including WhiteNoise)
receive an absolute additive diagonal term — `1e-5` in the npvi engine and
`1e-6` in the mfi_old engine — independent of the matrix's base diagonal,
while Linear and Polynomial kernels are returned without any added
regularization. -/
theorem claim5_kernelMatrix_regularization (f2 : ℚ → ℚ → ℚ) (f1 : ℚ → ℚ)
    (time : ℕ → ℚ) (i j : ℕ) :
    Npvi.kernelMatrix (Kernel.linear f2) time i j = rawEval (Kernel.linear f2) time i j
    ∧ Npvi.kernelMatrix (Kernel.polynomial f2) time i j =
        rawEval (Kernel.polynomial f2) time i j
    ∧ Npvi.kernelMatrix (Kernel.stationary f1) time i j =
        rawEval (Kernel.stationary f1) time i j + (if i = j then 1/100000 else 0)
    ∧ Npvi.kernelMatrix (Kernel.whiteNoise f1) time i j =
        rawEval (Kernel.whiteNoise f1) time i j + (if i = j then 1/100000 else 0)
    ∧ MfiOld.kernelMatrix (Kernel.stationary f1) time i j =
        rawEval (Kernel.stationary f1) time i j + (if i = j then 1/1000000 else 0)
    ∧ MfiOld.kernelMatrix (Kernel.linear f2) time i j =
        rawEval (Kernel.linear f2) time i j :=
  ⟨rfl, rfl, rfl, rfl, rfl, rfl⟩

/-- C5 counterexample to the claim as stated: a constant-2 stationary kernel
on a single time point gets `2 + 1e-5` (an absolute, not relative, additive
term, so not `2·(1 + 1e-5)`), a constant-5 Linear kernel gets no
regularization at all, and the two engine variants disagree
(`1e-5` vs `1e-6`). -/
theorem claim5_counterexample :
    Npvi.kernelMatrix (Kernel.stationary fun _ => 2) (fun _ => 0) 0 0 = 2 + 1/100000
    ∧ Npvi.kernelMatrix (Kernel.stationary fun _ => 2) (fun _ => 0) 0 0 ≠
        2 * (1 + 1/100000)
    ∧ Npvi.kernelMatrix (Kernel.linear fun _ _ => 5) (fun _ => 0) 0 0 = 5
    ∧ MfiOld.kernelMatrix (Kernel.stationary fun _ => 2) (fun _ => 0) 0 0 =
        2 + 1/1000000
    ∧ Npvi.kernelMatrix (Kernel.stationary fun _ => 2) (fun _ => 0) 0 0 ≠
        MfiOld.kernelMatrix (Kernel.stationary fun _ => 2) (fun _ => 0) 0 0 := by
  refine ⟨?_, ?_, rfl, ?_, ?_⟩ <;> norm_num [Npvi.kernelMatrix, MfiOld.kernelMatrix]

/-- C8: in `_predictKernelMatrix` a WhiteNoise kernel does yield the all-zero
cross-covariance, and stationary kernels the lag evaluation; but for Linear
and Polynomial kernels the non-stationary evaluation computed by the first
branch is overwritten (the second `if` is not an `elif`, so its `else`
re-assigns `K = kernel(r)`), hence the value actually returned is never that
non-stationary evaluation. -/
theorem claim8_predict_overwritten :
    (∀ (f : ℚ → ℚ) (tstar time : ℕ → ℚ),
      Npvi.predictKernelMatrix (Kernel.whiteNoise f) tstar time =
        some (Npvi.PredictResult.vec fun _ => 0))
    ∧ (∀ (f : ℚ → ℚ) (tstar time : ℕ → ℚ),
      Npvi.predictKernelMatrix (Kernel.stationary f) tstar time =
        some (Npvi.PredictResult.mat fun i j => f (tstar i - time j)))
    ∧ (∀ (f : ℚ → ℚ → ℚ) (tstar time : ℕ → ℚ),
      Npvi.predictKernelMatrix (Kernel.linear f) tstar time ≠
        some (Npvi.PredictResult.mat (Npvi.predictNonstatEval f tstar time)))
    ∧ (∀ (f : ℚ → ℚ → ℚ) (tstar time : ℕ → ℚ),
      Npvi.predictKernelMatrix (Kernel.polynomial f) tstar time ≠
        some (Npvi.PredictResult.mat (Npvi.predictNonstatEval f tstar time))) :=
  ⟨fun _ _ _ => rfl, fun _ _ _ => rfl,
   fun _ _ _ h => Option.noConfusion h, fun _ _ _ h => Option.noConfusion h⟩

/-- C7: each iteration of the npvi `EvidenceLowerBound` computes the local
ELBO as expected-log-joint plus entropy, but the method's `return`
statement yields the expected log joint alone — at expected log joint `1`
and entropy `2` the returned value is `1`, not the ELBO `3`, contradicting
the method's own docstring ("Returns: sum_ELB = Evidence lower bound"). -/
theorem claim7_return_not_elbo :
    (∀ elj ent : ℚ, Npvi.elboIteration elj ent = elj + ent)
    ∧ (∀ elj ent : ℚ, Npvi.evidenceLowerBoundReturn elj ent = elj)
    ∧ Npvi.elboIteration 1 2 = 3
    ∧ Npvi.evidenceLowerBoundReturn 1 2 = 1
    ∧ Npvi.evidenceLowerBoundReturn 1 2 ≠ Npvi.elboIteration 1 2 := by
  refine ⟨fun _ _ => rfl, fun _ _ => rfl, by norm_num [Npvi.elboIteration], rfl, ?_⟩
  norm_num [Npvi.elboIteration, Npvi.evidenceLowerBoundReturn]

/-- C3 (amended): in both `_updateSigmaMu_new` and `_expectedLogLike_new`,
a jitter/average-noise combination is computed but immediately overwritten:
the `error_term` actually used to divide the residual terms is the constant
`1`, independent of the jitters and of `yerr`. -/
theorem claim3_errorTerm_constant (sqrt : ℚ → ℚ) (p N : ℕ)
    (jitters : ℕ → ℚ) (yerr : ℕ → ℕ → ℚ) :
    MfiOld.errorTermUpdate sqrt p N jitters yerr = 1
    ∧ MfiOld.errorTermLoglike sqrt p N jitters yerr = 1 :=
  ⟨rfl, rfl⟩

/-- C3 counterexample to the claim as stated: two jitter vectors that differ
(everywhere) produce the same `error_term` value `1` in both functions, and
with jitter `3` and zero `yerr` the code's `error_term` is `1` while the
spec's jitter/noise aggregate evaluates to `3` (any square root fixing
`sqrt 9 = 3` and `sqrt 0 = 0` gives this; the witness function below maps
`9 ↦ 3` and everything else to `0`). -/
theorem claim3_counterexample :
    MfiOld.errorTermUpdate (fun _ => 0) 1 1 (fun _ => 0) (fun _ _ => 0) =
      MfiOld.errorTermUpdate (fun _ => 0) 1 1 (fun _ => 5) (fun _ _ => 0)
    ∧ MfiOld.errorTermLoglike (fun _ => 0) 1 1 (fun _ => 0) (fun _ _ => 0) =
      MfiOld.errorTermLoglike (fun _ => 0) 1 1 (fun _ => 5) (fun _ _ => 0)
    ∧ (fun _ : ℕ => (0:ℚ)) ≠ (fun _ : ℕ => (5:ℚ))
    ∧ MfiOld.errorTermSpec (fun x => if x = 9 then 3 else 0) 1 1
        (fun _ => 3) (fun _ _ => 0) = 3
    ∧ MfiOld.errorTermUpdate (fun x => if x = 9 then 3 else 0) 1 1
        (fun _ => 3) (fun _ _ => 0) ≠
      MfiOld.errorTermSpec (fun x => if x = 9 then 3 else 0) 1 1
        (fun _ => 3) (fun _ _ => 0) := by
  refine ⟨rfl, rfl, ?_, ?_, ?_⟩
  · intro h
    have h5 := congrFun h 0
    norm_num at h5
  · norm_num [MfiOld.errorTermSpec, Finset.sum_range_succ]
  · have h1 : MfiOld.errorTermUpdate (fun x => if x = 9 then 3 else 0) 1 1
        (fun _ => 3) (fun _ _ => 0) = 1 := rfl
    have h2 : MfiOld.errorTermSpec (fun x => if x = 9 then 3 else 0) 1 1
        (fun _ => 3) (fun _ _ => 0) = 3 := by
      norm_num [MfiOld.errorTermSpec, Finset.sum_range_succ]
    rw [h1, h2]
    norm_num

/-- C10: with the `means` argument `None` (or an empty, hence falsy, list)
`get_y` returns the raw `time` argument unchanged — never the `p×N`
reconstructed signal, which is a different constructor of the result
type. -/
theorem claim10_get_y_falsy_means (p q : ℕ) (n : ℕ → ℕ → ℕ → ℚ)
    (w : ℕ → ℕ → ℕ → ℚ) (time : List ℚ) :
    get_y p q n w time none = GetYResult.timeVec time
    ∧ get_y p q n w time (some []) = GetYResult.timeVec time
    ∧ ∀ m, GetYResult.timeVec time ≠ GetYResult.mat m :=
  ⟨rfl, rfl, fun _ h => GetYResult.noConfusion h⟩

theorem placeBlocks_before {N : ℕ} (bs : List (ℕ → ℕ → ℚ)) :
    ∀ (pos : ℕ) (M : ℕ → ℕ → ℚ) (r c : ℕ), r < pos ∨ c < pos →
      placeBlocks N bs pos M r c = M r c := by
  induction bs with
  | nil => intro pos M r c _; rfl
  | cons B bs ih =>
    intro pos M r c h
    rw [placeBlocks, ih (pos + N) _ r c (by omega)]
    rw [writeBlock]
    rcases h with h | h
    · rw [if_neg (by omega)]
    · rw [if_neg (by omega)]

theorem placeBlocks_get {N : ℕ} (bs : List (ℕ → ℕ → ℚ)) :
    ∀ (pos k : ℕ) (M : ℕ → ℕ → ℚ) (B : ℕ → ℕ → ℚ) (a b : ℕ),
      bs.get? k = some B → a < N → b < N →
      placeBlocks N bs pos M (pos + k * N + a) (pos + k * N + b) = B a b := by
  induction bs with
  | nil => intro pos k M B a b h _ _; exact absurd h (by simp)
  | cons B₀ bs ih =>
    intro pos k M B a b h ha hb
    cases k with
    | zero =>
      rw [List.get?_cons_zero, Option.some.injEq] at h
      subst h
      rw [placeBlocks, placeBlocks_before bs (pos + N) _ _ _ (by omega),
        writeBlock, if_pos (by omega)]
      congr 1 <;> omega
    | succ k =>
      rw [List.get?_cons_succ] at h
      have e1 : pos + (k + 1) * N + a = (pos + N) + k * N + a := by ring
      have e2 : pos + (k + 1) * N + b = (pos + N) + k * N + b := by ring
      rw [placeBlocks, e1, e2, ih (pos + N) k _ B a b h ha hb]

theorem placeBlocks_untouched {N : ℕ} (bs : List (ℕ → ℕ → ℚ)) :
    ∀ (pos : ℕ) (M : ℕ → ℕ → ℚ) (r c : ℕ),
      (∀ k, k < bs.length →
        ¬(pos + k * N ≤ r ∧ r < pos + k * N + N ∧
          pos + k * N ≤ c ∧ c < pos + k * N + N)) →
      placeBlocks N bs pos M r c = M r c := by
  induction bs with
  | nil => intro pos M r c _; rfl
  | cons B bs ih =>
    intro pos M r c h
    have hrest : ∀ k, k < bs.length →
        ¬((pos + N) + k * N ≤ r ∧ r < (pos + N) + k * N + N ∧
          (pos + N) + k * N ≤ c ∧ c < (pos + N) + k * N + N) := by
      intro k hk
      have h1 := h (k + 1) (by simpa using Nat.succ_lt_succ hk)
      have e : pos + (k + 1) * N = (pos + N) + k * N := by ring
      rw [e] at h1
      exact h1
    rw [placeBlocks, ih (pos + N) (writeBlock N M pos B) r c hrest, writeBlock,
      if_neg (by have h0 := h 0 (by simp); simpa using h0)]

/-- C4: `_CB_matrix` (with either engine's `_kernelMatrix` as `km`) fills a
square matrix of side `CB_size = N·q·(p+1) = (q + q·p)·N`: diagonal block
`j < q` is the kernel-matrix evaluation of node `j`'s own kernel, the
remaining `q·p` diagonal blocks all equal the single weight kernel's
matrix on the same time vector, every entry in distinct row/column blocks
is exactly zero, and everything at or beyond `CB_size` is zero. -/
theorem claim4_CB_matrix (km : Kernel → (ℕ → ℚ) → ℕ → ℕ → ℚ) (q p N : ℕ)
    (nodes : Fin q → Kernel) (weight : Kernel) (time : ℕ → ℚ) :
    (∀ (j : Fin q) (a b : ℕ), a < N → b < N →
      CB_matrix km q p N nodes weight time ((j : ℕ) * N + a) ((j : ℕ) * N + b) =
        km (nodes j) time a b)
    ∧ (∀ m a b : ℕ, q ≤ m → m < q * (p + 1) → a < N → b < N →
      CB_matrix km q p N nodes weight time (m * N + a) (m * N + b) =
        km weight time a b)
    ∧ (∀ r c : ℕ, r / N ≠ c / N → CB_matrix km q p N nodes weight time r c = 0)
    ∧ (∀ r c : ℕ, CB_size q p N ≤ r ∨ CB_size q p N ≤ c →
      CB_matrix km q p N nodes weight time r c = 0)
    ∧ CB_size q p N = (q + q * p) * N := by
  have hlen : ((List.ofFn fun i => km (nodes i) time) ++
      List.replicate (q * p) (km weight time)).length = q + q * p := by
    simp
  have hsize : CB_size q p N = (q + q * p) * N := by
    rw [CB_size]
    ring
  refine ⟨?_, ?_, ?_, ?_, hsize⟩
  · intro j a b ha hb
    have hget : ((List.ofFn fun i => km (nodes i) time) ++
        List.replicate (q * p) (km weight time)).get? (j : ℕ) =
          some (km (nodes j) time) := by
      rw [List.get?_append (by simpa using j.isLt)]
      simp
    have h := placeBlocks_get _ 0 (j : ℕ) (fun _ _ => 0) _ a b hget ha hb
    simpa [CB_matrix] using h
  · intro m a b hm1 hm2 ha hb
    have hget : ((List.ofFn fun i => km (nodes i) time) ++
        List.replicate (q * p) (km weight time)).get? m =
          some (km weight time) := by
      rw [List.get?_append_right (by simpa using hm1)]
      have hq : q * (p + 1) = q * p + q := by ring
      have hlt : m - (List.ofFn fun i => km (nodes i) time).length < q * p := by
        simp only [List.length_ofFn]
        omega
      rw [List.get?_eq_getElem?, List.getElem?_replicate_of_lt hlt]
    have h := placeBlocks_get _ 0 m (fun _ _ => 0) _ a b hget ha hb
    simpa [CB_matrix] using h
  · intro r c hrc
    rw [CB_matrix, placeBlocks_untouched]
    intro k _ hblk
    obtain ⟨h1, h2, h3, h4⟩ := hblk
    have hr : r / N = k :=
      Nat.div_eq_of_lt_le (by omega) (by rw [Nat.succ_mul]; omega)
    have hc : c / N = k :=
      Nat.div_eq_of_lt_le (by omega) (by rw [Nat.succ_mul]; omega)
    exact hrc (hr.trans hc.symm)
  · intro r c hout
    rw [CB_matrix, placeBlocks_untouched]
    intro k hk hblk
    rw [hlen] at hk
    obtain ⟨h1, h2, h3, h4⟩ := hblk
    rw [hsize] at hout
    have hkN : k * N + N ≤ (q + q * p) * N := by
      have : k + 1 ≤ q + q * p := hk
      calc k * N + N = (k + 1) * N := by ring
        _ ≤ (q + q * p) * N := Nat.mul_le_mul_right N this
    omega

theorem claim4_CB_matrix_witness :
    CB_matrix Npvi.kernelMatrix 1 1 1 (fun _ => Kernel.stationary fun _ => 2)
        (Kernel.stationary fun _ => 7) (fun _ => 0) 0 0 =
      Npvi.kernelMatrix (Kernel.stationary fun _ => 2) (fun _ => 0) 0 0
    ∧ CB_matrix Npvi.kernelMatrix 1 1 1 (fun _ => Kernel.stationary fun _ => 2)
        (Kernel.stationary fun _ => 7) (fun _ => 0) 1 1 =
      Npvi.kernelMatrix (Kernel.stationary fun _ => 7) (fun _ => 0) 0 0
    ∧ CB_matrix Npvi.kernelMatrix 1 1 1 (fun _ => Kernel.stationary fun _ => 2)
        (Kernel.stationary fun _ => 7) (fun _ => 0) 0 1 = 0 := by
  obtain ⟨hnode, hweight, hoffdiag, _, _⟩ :=
    claim4_CB_matrix Npvi.kernelMatrix 1 1 1 (fun _ => Kernel.stationary fun _ => 2)
      (Kernel.stationary fun _ => 7) (fun _ => 0)
  refine ⟨?_, ?_, ?_⟩
  · have h := hnode 0 0 0 (by norm_num) (by norm_num)
    simpa using h
  · have h := hweight 1 0 0 (by norm_num) (by norm_num) (by norm_num) (by norm_num)
    simpa using h
  · exact hoffdiag 0 1 (by norm_num)

theorem splitAlternate_length {α : Type} :
    ∀ l : List α, (splitAlternate l).1.length = (l.length + 1) / 2 ∧
      (splitAlternate l).2.length = l.length / 2 := by
  intro l
  induction l with
  | nil => exact ⟨by norm_num [splitAlternate], by norm_num [splitAlternate]⟩
  | cons a rest ih =>
    obtain ⟨ih1, ih2⟩ := ih
    constructor
    · simp only [splitAlternate, List.length_cons]
      omega
    · simp only [splitAlternate, List.length_cons]
      omega

/-- C9 (amended): constructing the engine with an odd number of trailing
data arguments fails with the numpy reshape `ValueError` (when `N > 0`),
and with a means list whose length differs from half the argument count it
fails with the means `AssertionError`, whose fixed message names no count;
construction only succeeds when the argument count is exactly `2·p` and the
means count is exactly `p`, with all `p` value and `p` error arrays kept —
never a silent truncation. -/
theorem claim9_init_validation (meansLen N : ℕ) (args : List (List ℚ)) :
    (args.length % 2 = 1 → 0 < N →
      initEngine meansLen N args =
        .error (.reshape (((args.length + 1) / 2) * N) (args.length / 2) N))
    ∧ (args.length % 2 = 0 → meansLen ≠ args.length / 2 →
      initEngine meansLen N args = .error (.meansAssert meansMsg))
    ∧ (∀ p ys yerrs, initEngine meansLen N args = .ok (p, ys, yerrs) →
      args.length = 2 * p ∧ meansLen = p ∧ ys.length = p ∧ yerrs.length = p) := by
  obtain ⟨hys, hyerrs⟩ := splitAlternate_length args
  refine ⟨?_, ?_, ?_⟩
  · intro hodd hN
    have hcond : (splitAlternate args).1.length * N ≠ (args.length / 2) * N := by
      rw [hys]
      have he : (args.length + 1) / 2 = args.length / 2 + 1 := by omega
      rw [he]
      intro hEq
      have h2 := Nat.eq_of_mul_eq_mul_right hN hEq
      omega
    simp only [initEngine]
    rw [if_pos hcond, hys]
  · intro heven hm
    have he : (args.length + 1) / 2 = args.length / 2 := by omega
    have hc1 : ¬((splitAlternate args).1.length * N ≠ (args.length / 2) * N) := by
      rw [hys, he]
      exact fun h => h rfl
    have hc2 : ¬((splitAlternate args).2.length * N ≠ (args.length / 2) * N) := by
      rw [hyerrs]
      exact fun h => h rfl
    simp only [initEngine]
    rw [if_neg hc1, if_neg hc2, if_pos hm]
  · intro p ys yerrs h
    simp only [initEngine] at h
    by_cases hc1 : (splitAlternate args).1.length * N ≠ (args.length / 2) * N
    · rw [if_pos hc1] at h
      exact absurd h (by simp)
    rw [if_neg hc1] at h
    by_cases hc2 : (splitAlternate args).2.length * N ≠ (args.length / 2) * N
    · rw [if_pos hc2] at h
      exact absurd h (by simp)
    rw [if_neg hc2] at h
    by_cases hc3 : meansLen ≠ args.length / 2
    · rw [if_pos hc3] at h
      exact absurd h (by simp)
    rw [if_neg hc3] at h
    by_cases hc4 : args.isEmpty
    · rw [if_pos hc4] at h
      exact absurd h (by simp)
    rw [if_neg hc4] at h
    by_cases hc5 : (args.length : ℚ) / 2 ≠ ((args.length / 2 : ℕ) : ℚ)
    · rw [if_pos hc5] at h
      exact absurd h (by simp)
    rw [if_neg hc5] at h
    push_neg at hc3 hc5
    simp only [Except.ok.injEq, Prod.mk.injEq] at h
    obtain ⟨hp, hys', hyerrs'⟩ := h
    have hlen : args.length = 2 * (args.length / 2) := by
      have h2 : (args.length : ℚ) = 2 * ((args.length / 2 : ℕ) : ℚ) := by
        field_simp at hc5
        linarith
      have h3 : (args.length : ℚ) = ((2 * (args.length / 2) : ℕ) : ℚ) := by
        push_cast
        linarith
      exact_mod_cast h3
    subst hp
    refine ⟨by omega, by omega, ?_, ?_⟩
    · rw [← hys', hys]
      omega
    · rw [← hyerrs', hyerrs]

theorem claim9_init_validation_witness :
    initEngine 2 1 [[0], [0], [0]] =
      Except.error (InitError.reshape 2 1 1) := by
  have h := (claim9_init_validation 2 1 [[0], [0], [0]]).1 (by norm_num) (by norm_num)
  simpa using h

/-- C9 counterexample to the claim as stated: with 4 data arguments
(`p = 2`) and 3 means, construction fails via the means assertion, but its
fixed message names no count at all (it contains no digit); with 3 data
arguments and 2 means it fails with a numpy reshape `ValueError`, not a
validation error about the argument count. -/
theorem claim9_counterexample :
    initEngine 3 1 [[0], [0], [0], [0]] =
      Except.error (InitError.meansAssert meansMsg)
    ∧ mentionsAnyCount meansMsg = false
    ∧ initEngine 2 1 [[0], [0], [0]] =
      Except.error (InitError.reshape 2 1 1) := by
  refine ⟨rfl, ?_, rfl⟩
  decide

end Gprn

namespace MfiOld

theorem elbLoop_succ {α β γ δ : Type}
    (step : MFState α β γ δ → MFState α β γ δ × ℚ) (fuel : ℕ)
    (ELB : List ℚ) (s : MFState α β γ δ) (last : ℚ) :
    elbLoop step (fuel+1) ELB s last =
      if |lastTenMean (ELB ++ [(step s).2]) - (step s).2| < 1/10^10 ∧
          |lastTenMean (ELB ++ [(step s).2]) - (step s).2| ≠ 0
      then ((step s).2, (step s).1.muF, (step s).1.muW)
      else elbLoop step fuel (ELB ++ [(step s).2]) (step s).1 (step s).2 := rfl

theorem elbLoop_succ_seq {α β γ δ : Type}
    (step : MFState α β γ δ → MFState α β γ δ × ℚ) (s₀ : MFState α β γ δ)
    (fuel k : ℕ) :
    elbLoop step (fuel+1) (elbRecord step s₀ k) (mfState step s₀ k)
        (mfE step s₀ k) =
      if stopsAt step s₀ (k+1)
      then (mfE step s₀ (k+1), (mfState step s₀ (k+1)).muF,
        (mfState step s₀ (k+1)).muW)
      else elbLoop step fuel (elbRecord step s₀ (k+1)) (mfState step s₀ (k+1))
        (mfE step s₀ (k+1)) := rfl

/-- Running the loop from the state after `k` iterations: if no iteration in
the remaining budget satisfies the stopping criterion, the loop exhausts the
budget and returns the last ELBO with the final means. -/
theorem elbLoop_run_all {α β γ δ : Type}
    (step : MFState α β γ δ → MFState α β γ δ × ℚ) (s₀ : MFState α β γ δ) :
    ∀ fuel k, (∀ j, k < j → j ≤ k + fuel → ¬ stopsAt step s₀ j) →
      elbLoop step fuel (elbRecord step s₀ k) (mfState step s₀ k)
          (mfE step s₀ k) =
        (mfE step s₀ (k + fuel), (mfState step s₀ (k + fuel)).muF,
          (mfState step s₀ (k + fuel)).muW) := by
  intro fuel
  induction fuel with
  | zero =>
    intro k _
    rfl
  | succ fuel ih =>
    intro k h
    rw [elbLoop_succ_seq, if_neg (h (k+1) (by omega) (by omega))]
    have h2 := ih (k + 1) fun j hj1 hj2 => h j (by omega) (by omega)
    rw [show k + (fuel + 1) = (k + 1) + fuel by omega]
    exact h2

/-- Running the loop from the state after `k` iterations: if iteration `k₀`
within the remaining budget is the first to satisfy the stopping criterion,
the loop stops there, returning that iteration's ELBO and means. -/
theorem elbLoop_stops {α β γ δ : Type}
    (step : MFState α β γ δ → MFState α β γ δ × ℚ) (s₀ : MFState α β γ δ) :
    ∀ fuel k k₀, k < k₀ → k₀ ≤ k + fuel → stopsAt step s₀ k₀ →
      (∀ j, k < j → j < k₀ → ¬ stopsAt step s₀ j) →
      elbLoop step fuel (elbRecord step s₀ k) (mfState step s₀ k)
          (mfE step s₀ k) =
        (mfE step s₀ k₀, (mfState step s₀ k₀).muF, (mfState step s₀ k₀).muW) := by
  intro fuel
  induction fuel with
  | zero =>
    intro k k₀ h1 h2 _ _
    omega
  | succ fuel ih =>
    intro k k₀ h1 h2 hstop hno
    by_cases hcase : k + 1 = k₀
    · subst hcase
      rw [elbLoop_succ_seq, if_pos hstop]
    · have hlt : k + 1 < k₀ := by omega
      rw [elbLoop_succ_seq, if_neg (hno (k+1) (by omega) hlt)]
      exact ih (k+1) k₀ hlt (by omega) hstop fun j hj1 hj2 => hno j (by omega) hj2

/-- C6: the mean-field `EvidenceLowerBound` loop stops early at the first
iteration whose ELBO differs from the mean of the last ten recorded ELBO
values by less than 1e-10 but not by exactly zero, returning that
iteration's ELBO together with the node means and weight means; if no
iteration within the budget satisfies the criterion, it runs until the
budget is exhausted and returns the last ELBO with the final node and
weight means. -/
theorem claim6_elbo_loop {α β γ δ : Type}
    (step : MFState α β γ δ → MFState α β γ δ × ℚ) (s₀ : MFState α β γ δ)
    (iterations : ℕ) :
    (∀ k₀, 1 ≤ k₀ → k₀ ≤ iterations → stopsAt step s₀ k₀ →
      (∀ j, 1 ≤ j → j < k₀ → ¬ stopsAt step s₀ j) →
      evidenceLowerBound step iterations s₀ =
        (mfE step s₀ k₀, (mfState step s₀ k₀).muF, (mfState step s₀ k₀).muW))
    ∧ ((∀ j, 1 ≤ j → j ≤ iterations → ¬ stopsAt step s₀ j) →
      evidenceLowerBound step iterations s₀ =
        (mfE step s₀ iterations, (mfState step s₀ iterations).muF,
          (mfState step s₀ iterations).muW)) := by
  constructor
  · intro k₀ h1 h2 hstop hno
    exact elbLoop_stops step s₀ iterations 0 k₀ (by omega) (by omega) hstop
      fun j hj1 hj2 => hno j (by omega) hj2
  · intro hno
    have h := elbLoop_run_all step s₀ iterations 0
      fun j hj1 hj2 => hno j (by omega) (by omega)
    rw [Nat.zero_add] at h
    exact h

theorem claim6_elbo_loop_witness :
    evidenceLowerBound (fun s : MFState ℚ ℚ ℚ ℚ =>
        ({ muF := s.muF + 1, varF := s.varF, muW := s.muW, varW := s.varW }, 1))
      3 ⟨0, 0, 0, 0⟩ = (1, 3, 0) := by
  have h := (claim6_elbo_loop (fun s : MFState ℚ ℚ ℚ ℚ =>
      ({ muF := s.muF + 1, varF := s.varF, muW := s.muW, varW := s.varW }, 1))
      ⟨0, 0, 0, 0⟩ 3).2 ?_
  · rw [h]
    norm_num [mfE, mfState]
  · intro j h1 h3
    interval_cases j
    · intro hc
      have hlt := hc.1
      norm_num [stopsAt, elbRecord, mfE, mfState, lastTenMean, abs_lt] at hlt
    · intro hc
      have hlt := hc.1
      norm_num [stopsAt, elbRecord, mfE, mfState, lastTenMean, abs_lt] at hlt
    · intro hc
      have hlt := hc.1
      norm_num [stopsAt, elbRecord, mfE, mfState, lastTenMean, abs_lt] at hlt

end MfiOld
